import Mathlib

/-!
Verification development for a multi-mode, longest-match, streaming
regular-expression lexer.  The Rust sources embedded here are
src/lexer/regex.rs (regex IR, Brzozowski-derivative matcher),
src/lexer/token.rs (token regexes) and src/lexer/lexer.rs (the
mode-aware longest-match driver).

Characters are modelled as natural numbers (Unicode code points);
range tests in the source are plain order comparisons on code points.
The Rust Regex struct wraps a reference-counted node together with a
cached nullability flag; every construction path of the source sets the
cache to exactly the recursive nullability of the node (the smart
constructors combine the caches of the arguments with the boolean
operations used below, and the simplification branches return existing
terms together with their caches), so the cache is embedded as the
recursive function nullable on the node tree.
-/

set_option maxRecDepth 10000

/-- The regex IR node tree, from enum RegexNode in src/lexer/regex.rs. -/
inductive RegexNode where
  | Empty : RegexNode
  | Epsilon : RegexNode
  | Range (lo hi : Nat) : RegexNode
  | Concat (a b : RegexNode) : RegexNode
  | Union (a b : RegexNode) : RegexNode
  | Star (a : RegexNode) : RegexNode
deriving DecidableEq, Repr

abbrev Regex := RegexNode

namespace Regex

/-- Regex::is_empty. -/
def is_empty : Regex → Bool
  | .Empty => true
  | _ => false

/-- Regex::is_epsilon. -/
def is_epsilon : Regex → Bool
  | .Epsilon => true
  | _ => false

/-- Regex::empty. -/
def empty : Regex := .Empty

/-- Regex::epsilon. -/
def epsilon : Regex := .Epsilon

/-- Regex::range. -/
def range (lo hi : Nat) : Regex := .Range lo hi

/-- Regex::char, a single-point range. -/
def char (c : Nat) : Regex := .Range c c

/-- Regex::any, the full code-point range: char::MIN = 0, char::MAX = 0x10FFFF. -/
def any : Regex := .Range 0 0x10FFFF

/-- Regex::concat, the smart constructor (same branch order as the source). -/
def concat (a b : Regex) : Regex :=
  if a.is_empty || b.is_epsilon then a
  else if b.is_empty || a.is_epsilon then b
  else .Concat a b

/-- Regex::union, the smart constructor (same branch order as the source). -/
def union (a b : Regex) : Regex :=
  if a.is_empty then b
  else if b.is_empty then a
  else .Union a b

/-- Regex::star; the source applies no simplification here. -/
def star (a : Regex) : Regex := .Star a

/-- Regex::plus = self.concat(self.star()). -/
def plus (a : Regex) : Regex := concat a (star a)

/-- Regex::opt = self.union(epsilon). -/
def opt (a : Regex) : Regex := union a epsilon

/-- Regex::one_of: fold of union over the characters, starting from empty. -/
def one_of (chars : List Nat) : Regex :=
  chars.foldl (fun r c => union r (char c)) empty

/-- Nullability; embeds the cached flag of the Rust Regex struct
(Empty, Range are built with false, Epsilon and Star with true, Concat
with the conjunction and Union with the disjunction of the caches). -/
def nullable : Regex → Bool
  | .Empty => false
  | .Epsilon => true
  | .Range _ _ => false
  | .Concat a b => nullable a && nullable b
  | .Union a b => nullable a || nullable b
  | .Star _ => true

/-- Regex::v. -/
def v (a : Regex) : Regex := if a.nullable then epsilon else empty

/-- Regex::derivative, the Brzozowski derivative w.r.t. one code point. -/
def derivative : Regex → Nat → Regex
  | .Empty, _ => empty
  | .Epsilon, _ => empty
  | .Range lo hi, c => if lo ≤ c && c ≤ hi then epsilon else empty
  | .Concat a b, c => union (concat (derivative a c) b) (concat (v a) (derivative b c))
  | .Union a b, c => union (derivative a c) (derivative b c)
  | .Star a, c => concat (derivative a c) (.Star a)

/-- fn incr_char: increment skipping the surrogate hole. -/
def incr_char (c : Nat) : Nat := if c = 0xD7FF then 0xE000 else c + 1

/-- fn decr_char: decrement skipping the surrogate hole. -/
def decr_char (c : Nat) : Nat := if c = 0xE000 then 0xD7FF else c - 1

/-- Regex::none_of.  The source sorts the forbidden code points,
removes consecutive duplicates, unions the gaps between consecutive
points and finally the margin ranges below the first and above the
last point.  (Rust sort_unstable + dedup on the sorted list produce
the sorted list without duplicates, which List.dedup of the merge
sort also is.) -/
def none_of (chars : List Nat) : Regex :=
  let cs := (chars.mergeSort (· ≤ ·)).dedup
  let r := (cs.zip cs.tail).foldl
    (fun r p =>
      let anext := incr_char p.1
      let bprev := decr_char p.2
      if bprev ≠ p.1 then union r (range anext bprev) else r)
    empty
  let r := match cs.head? with
    | some a => if a ≠ 0 then union r (range 0 (decr_char a)) else r
    | none => r
  match cs.getLast? with
  | some b => if b ≠ 0x10FFFF then union r (range (incr_char b) 0x10FFFF) else r
  | none => r

end Regex

/-- The mathematical language of a regex term: the spec-side predicate
"w is in L(r)" of section 4.2 of the specification. -/
inductive Lang : Regex → List Nat → Prop where
  | epsilon : Lang .Epsilon []
  | range {lo hi c : Nat} : lo ≤ c → c ≤ hi → Lang (.Range lo hi) [c]
  | concat {a b : Regex} {u w : List Nat} :
      Lang a u → Lang b w → Lang (.Concat a b) (u ++ w)
  | unionL {a b : Regex} {w : List Nat} : Lang a w → Lang (.Union a b) w
  | unionR {a b : Regex} {w : List Nat} : Lang b w → Lang (.Union a b) w
  | starNil {a : Regex} : Lang (.Star a) []
  | starCons {a : Regex} {u w : List Nat} :
      Lang a u → u ≠ [] → Lang (.Star a) w → Lang (.Star a) (u ++ w)

/-- struct Matcher of src/lexer/regex.rs: the stored regex and the
current derivative state. -/
structure Matcher where
  regex : Regex
  state : Regex
deriving DecidableEq, Repr

namespace Matcher

/-- Matcher::new. -/
def new (r : Regex) : Matcher := ⟨r, r⟩

/-- Matcher::reset. -/
def reset (m : Matcher) : Matcher := { m with state := m.regex }

/-- Matcher::put. -/
def put (m : Matcher) (c : Nat) : Matcher := { m with state := m.state.derivative c }

/-- Matcher::is_accepted. -/
def is_accepted (m : Matcher) : Bool := m.state.nullable

/-- Matcher::is_dead. -/
def is_dead (m : Matcher) : Bool := m.state.is_empty

/-- Matcher::match_string: reset, feed every character, report acceptance. -/
def match_string (m : Matcher) (s : List Nat) : Bool :=
  (s.foldl Matcher.put m.reset).is_accepted

end Matcher

namespace Token

/-- Token::regex_integer: opt(sign) concat digit plus, from src/lexer/token.rs. -/
def regex_integer : Regex :=
  let digit := Regex.range 48 57
  let sign := Regex.one_of [45, 43]
  Regex.concat (Regex.opt sign) (Regex.plus digit)

/-- Token::regex_float from src/lexer/token.rs:
integer concat (dot concat (opt(fraction) concat opt(exponent)))
with fraction = integer and exponent = (char e union char E) concat integer plus. -/
def regex_float : Regex :=
  let integer := regex_integer
  let dot := Regex.char 46
  let fraction := integer
  let exponent := Regex.concat (Regex.union (Regex.char 101) (Regex.char 69))
                              (Regex.plus integer)
  Regex.concat integer (Regex.concat dot
    (Regex.concat (Regex.opt fraction) (Regex.opt exponent)))

end Token

/-- struct Lexeme of src/lexer/lexer.rs; the span holds the literal
source characters when the winning rule requested it. -/
structure Lexeme (T : Type) where
  token : T
  position : Nat
  length : Nat
  span : Option (List Nat)
deriving DecidableEq, Repr

/-- struct Rule of src/lexer/lexer.rs: token kind, the per-rule
matcher, the keep_span flag and the target-mode index. -/
structure Rule (T : Type) where
  token : T
  matcher : Matcher
  keep_span : Bool
  to_mode : Nat
deriving DecidableEq, Repr

/-- struct Lexer of src/lexer/lexer.rs.  Mode keys of type M are
resolved to indices through map; the HashMap of the source is
embedded as an association list (only entry-or-insert and lookup are
used, for which the two are observationally equal). -/
structure Lexer (T M : Type) where
  modes : List (List (Rule T))
  current_mode : Nat
  start_mode : Nat
  input : List Nat
  position : Nat
  output : List (Lexeme T)
  last_accepted : Option (Lexeme T × Nat)
  error : Option String
  map : List (M × Nat)
deriving DecidableEq, Repr

/-- Association-list lookup standing in for HashMap::get. -/
def lookupMode {M : Type} [DecidableEq M] : List (M × Nat) → M → Option Nat
  | [], _ => none
  | (k, val) :: rest, key => if k = key then some val else lookupMode rest key

namespace Lexer

variable {T M : Type} [DecidableEq M]

/-- Lexer::new. -/
def new : Lexer T M := ⟨[], 0, 0, [], 0, [], none, none, []⟩

/-- HashMap::entry(mode).or_insert_with of the source: resolve a mode
key to its index, registering a fresh empty mode when absent. -/
def modeIndex (st : Lexer T M) (mode : M) : Lexer T M × Nat :=
  match lookupMode st.map mode with
  | some i => (st, i)
  | none =>
      let i := st.modes.length
      ({ st with modes := st.modes ++ [[]], map := st.map ++ [(mode, i)] }, i)

/-- Lexer::set_start_mode.  The source assigns self.current_mode twice
(the entry result, then the map lookup of the same key, the same
index) and never assigns the start_mode field. -/
def set_start_mode (st : Lexer T M) (mode : M) : Lexer T M :=
  let p := st.modeIndex mode
  { p.1 with current_mode := p.2 }

/-- Lexer::add_rule: resolve both mode keys, build a fresh matcher and
append the rule to the from-mode's list. -/
def add_rule (st : Lexer T M) (regex : Regex) (token : T) (keep_span : Bool)
    (from_mode to_mode : M) : Lexer T M :=
  let p1 := st.modeIndex from_mode
  let p2 := p1.1.modeIndex to_mode
  let st2 := p2.1
  let rule : Rule T := ⟨token, Matcher.new regex, keep_span, p2.2⟩
  { st2 with modes := st2.modes.set p1.2 (st2.modes.getD p1.2 [] ++ [rule]) }

/-- Lexer::reset. -/
def reset (st : Lexer T M) : Lexer T M :=
  { st with
      modes := st.modes.map (fun rs => rs.map (fun r => { r with matcher := r.matcher.reset })),
      input := [], position := 0, output := [],
      last_accepted := none, error := none,
      current_mode := st.start_mode }

/-- Lexer::emit.  A committed lexeme advances the position
accumulator, drains the matched characters, switches to the rule's
target mode, resets the matchers of that mode and queues the lexeme;
without a recorded match the sticky error is set.  The two .error
results embed the panics of the source (VecDeque::drain out of range,
and indexing the mode table). -/
def emit (st : Lexer T M) : Except String (Lexer T M) :=
  match st.last_accepted with
  | some (lexeme, mode_to) =>
      if lexeme.length ≤ st.input.length then
        match st.modes[mode_to]? with
        | some rules =>
            .ok { st with
                    position := st.position + lexeme.length,
                    input := st.input.drop lexeme.length,
                    current_mode := mode_to,
                    modes := st.modes.set mode_to
                      (rules.map fun r => { r with matcher := r.matcher.reset }),
                    last_accepted := none,
                    output := st.output ++ [lexeme] }
        | none => .error "index out of bounds"
      else .error "drain out of bounds"
  | none => .ok { st with error := some "unexpected character" }

/-- The matchers of the current mode advanced by one character: every
rule's matcher is fed c, as in the for-loop over rules of Lexer::lex. -/
def stepRules {TT : Type} (rules : List (Rule TT)) (c : Nat) : List (Rule TT) :=
  rules.map (fun r => { r with matcher := r.matcher.put c })

/-- The provisional match recorded at one scan position: the first
rule, in declaration order, whose matcher accepts after being fed,
packaged as the lexeme the source constructs (position accumulator,
length cursor + 1, span drawn from the queue when requested) together
with the rule's target mode. -/
def stepAccepted (st : Lexer T M) (cursor : Nat) (rules' : List (Rule T)) :
    Option (Lexeme T × Nat) :=
  match rules'.find? (fun r => r.matcher.is_accepted) with
  | some r => some (⟨r.token, st.position, cursor + 1,
                    if r.keep_span then some (st.input.take (cursor + 1)) else none⟩,
                    r.to_mode)
  | none => none

/-- The state after one scan iteration, before the all_dead test: the
advanced matchers are written back and last_accepted is overwritten
when some rule accepted at this position. -/
def stepState (st : Lexer T M) (cursor : Nat) (rules' : List (Rule T)) : Lexer T M :=
  let st1 := { st with modes := st.modes.set st.current_mode rules' }
  match stepAccepted st cursor rules' with
  | some a => { st1 with last_accepted := some a }
  | none => st1

/-- The loop of Lexer::lex.  One fuel unit is one loop iteration; the
source loop terminates on every state reachable through the public
interface (each iteration either advances the cursor or drains at
least one character), and lex below passes strictly more fuel than
the measure input²+input-cursor bounding the iteration count, so the
fuel-exhausted branch is never taken there.  The accumulated all_dead
flag is threaded exactly as in the source: initialized once per lex
call and and-ed with the deadness of every rule at every iteration,
never reset between iterations. -/
def lexLoop : Nat → Lexer T M → Nat → Bool → Except String (Lexer T M)
  | 0, st, _, _ => .ok st
  | fuel + 1, st, cursor, all_dead =>
    if h : cursor < st.input.length then
      match st.modes[st.current_mode]? with
      | none => .error "index out of bounds"
      | some rules =>
          let rules' := stepRules rules st.input[cursor]
          let all_dead' := all_dead && rules'.all (fun r => r.matcher.is_dead)
          let st2 := stepState st cursor rules'
          if all_dead' then
            match st2.emit with
            | .error e => .error e
            | .ok st3 => if st3.error.isSome then .ok st3 else lexLoop fuel st3 0 all_dead'
          else lexLoop fuel st2 (cursor + 1) all_dead'
    else .ok st

/-- Lexer::lex: scan from the last queued character (the one just
put), with all_dead starting true. -/
def lex (st : Lexer T M) : Except String (Lexer T M) :=
  lexLoop (st.input.length * st.input.length + st.input.length + 1) st
    (st.input.length - 1) true

/-- Lexer::put: a no-op in the sticky-error state, else enqueue the
character and scan. -/
def put (st : Lexer T M) (c : Nat) : Except String (Lexer T M) :=
  if st.error.isSome then .ok st
  else Lexer.lex { st with input := st.input ++ [c] }

/-- Lexer::finish: a no-op in the sticky-error state, else emit
unconditionally, then set the end-of-input error if characters remain. -/
def finish (st : Lexer T M) : Except String (Lexer T M) :=
  if st.error.isSome then .ok st
  else
    match st.emit with
    | .error e => .error e
    | .ok st' =>
        .ok (if 0 < st'.input.length then { st' with error := some "unexpected end of input" } else st')

/-- Lexer::get: none in the sticky-error state, else pop the front of
the output queue. -/
def get (st : Lexer T M) : Option (Lexeme T) × Lexer T M :=
  if st.error.isSome then (none, st)
  else match st.output with
    | [] => (none, st)
    | l :: rest => (some l, { st with output := rest })

/-- Feed a word one character at a time through put. -/
def feedAll (st : Lexer T M) (w : List Nat) : Except String (Lexer T M) :=
  match w with
  | [] => .ok st
  | c :: cs =>
      match st.put c with
      | .error e => .error e
      | .ok st' => st'.feedAll cs

/-- Feed a word one character at a time, then call finish. -/
def runAll (st : Lexer T M) (w : List Nat) : Except String (Lexer T M) :=
  match st.feedAll w with
  | .error e => .error e
  | .ok st' => st'.finish

/-- Well-formedness of a lexer state: the current mode and every
rule's target mode index the mode table, and a recorded match has a
positive length bounded by the queue.  Every state reachable through
the public interface after at least one mode is registered satisfies
this; it is exactly what excludes the panics embedded in emit and
lexLoop. -/
def wf (st : Lexer T M) : Bool :=
  decide (st.current_mode < st.modes.length) &&
  st.modes.all (fun rs => rs.all (fun r => decide (r.to_mode < st.modes.length))) &&
  (match st.last_accepted with
   | none => true
   | some (lx, md) =>
       decide (1 ≤ lx.length) && decide (lx.length ≤ st.input.length) &&
       decide (md < st.modes.length))

end Lexer

/-! Specification-side functions for the longest-match claims.  A rule
accepts a word when the matcher built from its regex accepts it, that
is, when the iterated derivative of the stored regex is nullable. -/

/-- Acceptance of a word by one rule's regex (matcher semantics). -/
def ruleAccepts {T : Type} (r : Rule T) (w : List Nat) : Bool :=
  ((w.foldl Regex.derivative r.matcher.regex)).nullable

/-- The first rule, in declaration order, accepting the word. -/
def firstAccepting {T : Type} (rs : List (Rule T)) (w : List Nat) : Option (Rule T) :=
  rs.find? (fun r => ruleAccepts r w)

/-- Does some rule accept the word. -/
def anyAccepting {T : Type} (rs : List (Rule T)) (w : List Nat) : Bool :=
  rs.any (fun r => ruleAccepts r w)

/-- Are all rule matchers dead after the word. -/
def allDeadAfter {T : Type} (rs : List (Rule T)) (w : List Nat) : Bool :=
  rs.all (fun r => ((w.foldl Regex.derivative r.matcher.regex)).is_empty)

/-- Largest l between 1 and the bound such that some rule accepts the
first l characters of w, together with the first such rule. -/
def bestAux {T : Type} (rs : List (Rule T)) (w : List Nat) : Nat → Option (Nat × Rule T)
  | 0 => none
  | l + 1 =>
    match firstAccepting rs (w.take (l + 1)) with
    | some r => some (l + 1, r)
    | none => bestAux rs w l

/-- The longest-match specification over the whole word. -/
def bestMatch {T : Type} (rs : List (Rule T)) (w : List Nat) : Option (Nat × Rule T) :=
  bestAux rs w w.length

/-- The lexeme the driver records for a match of the first l
characters of w by rule r, with position accumulator p0. -/
def specLexeme {T : Type} (p0 l : Nat) (w : List Nat) (r : Rule T) : Lexeme T :=
  ⟨r.token, p0, l, if r.keep_span then some (w.take l) else none⟩

/-- The specification value of the last_accepted register after the
word w has been scanned with no emit yet. -/
def specLast {T : Type} (rs : List (Rule T)) (w : List Nat) (p0 : Nat) :
    Option (Lexeme T × Nat) :=
  (bestMatch rs w).map (fun p => (specLexeme p0 p.1 w p.2, p.2.to_mode))

/-- Rules of a mode after the matchers consumed the word w from fresh. -/
def advanceRules {T : Type} (rs : List (Rule T)) (w : List Nat) : List (Rule T) :=
  rs.map (fun r =>
    { r with matcher := { regex := r.matcher.regex,
                          state := w.foldl Regex.derivative r.matcher.regex } })

/-- Loop measure bounding the remaining iterations of lexLoop. -/
def loopMeasure {T M : Type} (st : Lexer T M) (cursor : Nat) : Nat :=
  st.input.length * st.input.length + (st.input.length - cursor)

/-- Invariant of the driver before the first emit: after the word w
has been fed character by character into a lexer whose current mode m
held the fresh rules rs0, and no position yet killed every matcher,
the state is fully determined: matchers of mode m advanced over w,
other modes untouched, the queue holds w, output empty, no error, and
last_accepted holds the specification's longest match over w. -/
structure PreEmit {T MK : Type} (tbl : List (List (Rule T))) (m p0 : Nat)
    (rs0 : List (Rule T)) (w : List Nat) (st : Lexer T MK) : Prop where
  modes_len : st.modes.length = tbl.length
  modes_at : st.modes[m]? = some (advanceRules rs0 w)
  modes_ne : ∀ j, j ≠ m → st.modes[j]? = tbl[j]?
  cur : st.current_mode = m
  inp : st.input = w
  pos : st.position = p0
  out : st.output = []
  err : st.error = none
  la : st.last_accepted = specLast rs0 w p0
  alive : ∀ k, 1 ≤ k → k ≤ w.length → allDeadAfter rs0 (w.take k) = false

/-! Concrete lexers used to evaluate the code on specific inputs. -/

/-- The regex for the three-character word aab. -/
def regexAAB : Regex :=
  Regex.concat (Regex.char 97) (Regex.concat (Regex.char 97) (Regex.char 98))

/-- A lexer with the two rules aab (token 0) and a (token 1) in one mode. -/
def lexC3 : Lexer Nat Nat :=
  ((Lexer.new : Lexer Nat Nat).add_rule regexAAB 0 false 0 0).add_rule
    (Regex.char 97) 1 false 0 0

/-- A lexer with one rule for the character a, then the start mode set
to the separately registered mode key 5. -/
def lexC7 : Lexer Nat Nat :=
  ((Lexer.new : Lexer Nat Nat).add_rule (Regex.char 97) 0 false 0 0).set_start_mode 5

/-- A lexer with one rule: the character a produces token 0. -/
def lexA : Lexer Nat Nat :=
  (Lexer.new : Lexer Nat Nat).add_rule (Regex.char 97) 0 false 0 0

/-- A lexer state in the sticky-error state with one committed lexeme
still in the output queue (the state reached by feeding a then b to
lexA). -/
def lexErrState : Lexer Nat Nat :=
  { lexA with input := [98], position := 1,
              output := [⟨0, 0, 1, none⟩],
              error := some "unexpected character" }

/-! Language lemmas: inversion principles for Lang, transport along the
smart constructors, correctness of nullability and of the derivative. -/

theorem lang_empty_iff {w : List Nat} : Lang .Empty w ↔ False :=
  Iff.intro (fun h => nomatch h) (fun h => h.elim)

theorem lang_epsilon_iff {w : List Nat} : Lang .Epsilon w ↔ w = [] := by
  constructor
  · intro h; cases h; rfl
  · rintro rfl; exact .epsilon

theorem lang_range_iff {lo hi : Nat} {w : List Nat} :
    Lang (.Range lo hi) w ↔ ∃ c, w = [c] ∧ lo ≤ c ∧ c ≤ hi := by
  constructor
  · intro h; cases h with
    | range h1 h2 => exact ⟨_, rfl, h1, h2⟩
  · rintro ⟨c, rfl, h1, h2⟩; exact .range h1 h2

theorem lang_union_iff {a b : Regex} {w : List Nat} :
    Lang (.Union a b) w ↔ Lang a w ∨ Lang b w := by
  constructor
  · intro h; cases h with
    | unionL h => exact Or.inl h
    | unionR h => exact Or.inr h
  · rintro (h | h)
    · exact .unionL h
    · exact .unionR h

theorem lang_concat_iff {a b : Regex} {w : List Nat} :
    Lang (.Concat a b) w ↔ ∃ u u', w = u ++ u' ∧ Lang a u ∧ Lang b u' := by
  constructor
  · intro h; cases h with
    | concat h1 h2 => exact ⟨_, _, rfl, h1, h2⟩
  · rintro ⟨u, u', rfl, h1, h2⟩; exact .concat h1 h2

theorem lang_star_cons {a : Regex} {c : Nat} {w : List Nat}
    (h : Lang (.Star a) (c :: w)) :
    ∃ u u', w = u ++ u' ∧ Lang a (c :: u) ∧ Lang (.Star a) u' := by
  generalize hw : c :: w = w0 at h
  cases h with
  | starNil => cases hw
  | starCons hu hne hrest =>
    rename_i u u'
    cases u with
    | nil => exact absurd rfl hne
    | cons c0 u0 =>
      injection hw with h1 h2
      subst h1
      exact ⟨u0, u', h2, hu, hrest⟩

theorem is_empty_iff {a : Regex} : a.is_empty = true ↔ a = .Empty := by
  cases a <;> simp [Regex.is_empty]

theorem is_epsilon_iff {a : Regex} : a.is_epsilon = true ↔ a = .Epsilon := by
  cases a <;> simp [Regex.is_epsilon]

theorem lang_sconcat {a b : Regex} {w : List Nat} :
    Lang (Regex.concat a b) w ↔ Lang (.Concat a b) w := by
  unfold Regex.concat
  split_ifs with h1 h2
  · rcases Bool.or_eq_true_iff.1 h1 with h | h
    · rw [is_empty_iff.1 h]
      simp only [lang_empty_iff, lang_concat_iff, false_iff]
      rintro ⟨u, u', rfl, hu, hu'⟩
      exact hu
    · rw [is_epsilon_iff.1 h]
      rw [lang_concat_iff]
      constructor
      · intro hw; exact ⟨w, [], by simp, hw, .epsilon⟩
      · rintro ⟨u, u', rfl, hu, hu'⟩
        rw [lang_epsilon_iff.1 hu']; simpa using hu
  · rcases Bool.or_eq_true_iff.1 h2 with h | h
    · rw [is_empty_iff.1 h]
      simp only [lang_empty_iff, lang_concat_iff, false_iff]
      rintro ⟨u, u', rfl, hu, hu'⟩
      exact hu'
    · rw [is_epsilon_iff.1 h]
      rw [lang_concat_iff]
      constructor
      · intro hw; exact ⟨[], w, by simp, .epsilon, hw⟩
      · rintro ⟨u, u', rfl, hu, hu'⟩
        rw [lang_epsilon_iff.1 hu]; simpa using hu'
  · exact Iff.rfl

theorem lang_sunion {a b : Regex} {w : List Nat} :
    Lang (Regex.union a b) w ↔ Lang (.Union a b) w := by
  unfold Regex.union
  split_ifs with h1 h2
  · rw [is_empty_iff.1 h1, lang_union_iff]
    simp [lang_empty_iff]
  · rw [is_empty_iff.1 h2, lang_union_iff]
    simp [lang_empty_iff]
  · exact Iff.rfl

theorem nullable_iff {r : Regex} : r.nullable = true ↔ Lang r [] := by
  induction r with
  | Empty => simp [Regex.nullable, lang_empty_iff]
  | Epsilon => simp [Regex.nullable, lang_epsilon_iff]
  | Range lo hi => simp [Regex.nullable, lang_range_iff]
  | Concat a b iha ihb =>
    simp only [Regex.nullable, Bool.and_eq_true, iha, ihb, lang_concat_iff]
    constructor
    · rintro ⟨ha, hb⟩; exact ⟨[], [], rfl, ha, hb⟩
    · rintro ⟨u, u', he, hu, hu'⟩
      rcases List.append_eq_nil.1 he.symm with ⟨rfl, rfl⟩
      exact ⟨hu, hu'⟩
  | Union a b iha ihb =>
    simp only [Regex.nullable, Bool.or_eq_true, iha, ihb, lang_union_iff]
  | Star a ih =>
    simp only [Regex.nullable, true_iff]
    exact .starNil

theorem lang_v_iff {a : Regex} {w : List Nat} :
    Lang (Regex.v a) w ↔ a.nullable = true ∧ w = [] := by
  unfold Regex.v
  split_ifs with h
  · simp [Regex.epsilon, lang_epsilon_iff, h]
  · simp [Regex.empty, lang_empty_iff, h]

theorem lang_derivative {r : Regex} {c : Nat} {w : List Nat} :
    Lang (r.derivative c) w ↔ Lang r (c :: w) := by
  induction r generalizing w with
  | Empty =>
    constructor
    · intro h; exact nomatch h
    · intro h; exact nomatch h
  | Epsilon =>
    constructor
    · intro h; exact nomatch h
    · intro h; exact nomatch h
  | Range lo hi =>
    simp only [Regex.derivative]
    split_ifs with h
    · simp only [Bool.and_eq_true, decide_eq_true_eq] at h
      simp only [Regex.epsilon, lang_epsilon_iff]
      constructor
      · rintro rfl; exact Lang.range h.1 h.2
      · intro hw
        rcases lang_range_iff.1 hw with ⟨c', he, _, _⟩
        injection he with h1 h2
    · simp only [Bool.and_eq_true, decide_eq_true_eq, not_and_or, not_le] at h
      simp only [Regex.empty, lang_empty_iff, false_iff, lang_range_iff]
      rintro ⟨c', he, h1, h2⟩
      injection he with he1 he2
      subst he1
      rcases h with h | h
      · exact absurd h1 (not_le.2 h)
      · exact absurd h2 (not_le.2 h)
  | Concat a b iha ihb =>
    simp only [Regex.derivative, lang_sunion, lang_union_iff, lang_sconcat,
      lang_concat_iff]
    constructor
    · rintro (⟨u, u', rfl, hu, hu'⟩ | ⟨u, u', rfl, hu, hu'⟩)
      · exact ⟨c :: u, u', rfl, iha.1 hu, hu'⟩
      · rcases lang_v_iff.1 hu with ⟨hnul, rfl⟩
        exact ⟨[], c :: u', rfl, nullable_iff.1 hnul, ihb.1 hu'⟩
    · rintro ⟨u, u', he, hu, hu'⟩
      cases u with
      | nil =>
        right
        refine ⟨[], w, rfl, lang_v_iff.2 ⟨nullable_iff.2 hu, rfl⟩, ?_⟩
        simp only [List.nil_append] at he
        exact ihb.2 (he ▸ hu')
      | cons c0 u0 =>
        left
        injection he with h1 h2
        subst h1
        exact ⟨u0, u', h2, iha.2 hu, hu'⟩
  | Union a b iha ihb =>
    simp only [Regex.derivative, lang_sunion, lang_union_iff, iha, ihb]
  | Star a ih =>
    simp only [Regex.derivative, lang_sconcat, lang_concat_iff]
    constructor
    · rintro ⟨u, u', rfl, hu, hu'⟩
      exact (Lang.starCons (ih.1 hu) (by simp) hu' : Lang (.Star a) (c :: u ++ u'))
    · intro h
      rcases lang_star_cons h with ⟨u, u', rfl, hu, hu'⟩
      exact ⟨u, u', rfl, ih.2 hu, hu'⟩

theorem foldl_put_state (m : Matcher) (w : List Nat) :
    (w.foldl Matcher.put m).state = w.foldl Regex.derivative m.state := by
  induction w generalizing m with
  | nil => rfl
  | cons c cs ih => simpa using ih (m.put c)

theorem foldl_derivative_lang (s : Regex) (w : List Nat) :
    (w.foldl Regex.derivative s).nullable = true ↔ Lang s w := by
  induction w generalizing s with
  | nil => exact nullable_iff
  | cons c cs ih => simpa using (ih (s.derivative c)).trans lang_derivative

/-- C2: for every regex term and every word, resetting a matcher on
the term and feeding the characters of the word in order makes
is_accepted return true exactly when the word is in the mathematical
language of the term. -/
theorem C2_matcher_accepts_iff_lang (m : Matcher) (w : List Nat) :
    (w.foldl Matcher.put m.reset).is_accepted = true ↔ Lang m.regex w := by
  unfold Matcher.is_accepted
  rw [foldl_put_state]
  exact foldl_derivative_lang m.regex w

/-- Code behavior at the failing inputs of C4: the Float regex of
src/lexer/token.rs rejects the string 11e10 (code points 49 49 101 49
48) and accepts the string 11. (code points 49 49 46), the opposite of
the claim; the repository's own test test_large_string expects 11e10
to lex as a Float. -/
theorem C4_float_regex_requires_dot :
    (Matcher.new Token.regex_float).match_string [49, 49, 101, 49, 48] = false ∧
    (Matcher.new Token.regex_float).match_string [49, 49, 46] = true := by
  exact ⟨rfl, rfl⟩

/-- A doubled star is never structurally equal to a single star. -/
theorem star_ne_self (x : Regex) : RegexNode.Star x ≠ x := by
  intro h
  have h2 := congrArg (fun t => sizeOf t) h
  simp at h2

/-- C5 counterexample: the claim fails at x = Epsilon, because star
applies no simplification in the source. -/
theorem C5_counterexample :
    ¬ (Regex.star (Regex.star .Epsilon) = Regex.star .Epsilon) := by decide

/-- C5 amended: concat(epsilon, x) = x and union(x, empty) = x hold
structurally for every x, but star performs no simplification, so
star(star(x)) is the doubled Star node and never equals star(x). -/
theorem C5_smart_constructor_identities (x : Regex) :
    Regex.concat .Epsilon x = x ∧ Regex.union x .Empty = x ∧
    Regex.star (Regex.star x) ≠ Regex.star x := by
  refine ⟨?_, ?_, ?_⟩
  · cases x <;> rfl
  · cases x <;> rfl
  · intro h
    exact star_ne_self x (by injection h)

/-- none_of of the empty character list is the Empty regex: the gap
loop and both margin branches of the source do nothing on an empty
sorted list. -/
theorem none_of_nil : Regex.none_of [] = .Empty := by
  simp [Regex.none_of]
  rfl

/-- C6 counterexample: a fresh matcher on none_of of the empty string,
fed the single character a (code point 97), reports is_accepted =
false, not true as the claim states. -/
theorem C6_counterexample :
    ((Matcher.new (Regex.none_of [])).put 97).is_accepted = false := by
  rw [none_of_nil]
  rfl

/-- C6 amended: none_of applied to the empty string is the Empty
regex, so for every code point c a fresh matcher on it fed the single
character c has is_accepted() = false (and is_dead() = true). -/
theorem C6_none_of_empty_rejects (c : Nat) :
    ((Matcher.new (Regex.none_of [])).put c).is_accepted = false ∧
    ((Matcher.new (Regex.none_of [])).put c).is_dead = true := by
  rw [none_of_nil]
  exact ⟨rfl, rfl⟩

/-- Code behavior at the failing input of C7: register mode key 0 via
add_rule (index 0), then set_start_mode with the new mode key 5 (index
1).  set_start_mode makes mode 1 current but never writes the
start_mode field, so reset restores current_mode to 0, not to the
index of mode key 5. -/
theorem C7_reset_forgets_start_mode :
    lexC7.current_mode = 1 ∧ lookupMode lexC7.map 5 = some 1 ∧
    lexC7.start_mode = 0 ∧ lexC7.reset.current_mode = 0 := by
  exact ⟨rfl, rfl, rfl, rfl⟩

/-- Code behavior at the failing input of C8: finish on a lexer whose
queue is empty and whose last_accepted is none calls emit
unconditionally, and emit without a recorded match sets the sticky
error "unexpected character", although no character is present. -/
theorem C8_finish_empty_queue_sets_error :
    lexA.input = [] ∧ lexA.last_accepted = none ∧ lexA.error = none ∧
    ∃ st : Lexer Nat Nat, lexA.finish = .ok st ∧ st.error = some "unexpected character" := by
  exact ⟨rfl, rfl, rfl, _, rfl, rfl⟩

/-- C9 counterexample: feeding a then b to the one-rule lexer commits
the lexeme for a to the output queue and then sets the sticky error;
get returns none although a committed lexeme is queued, so get does
not return the lexemes committed before the error. -/
theorem C9_counterexample :
    ∃ st : Lexer Nat Nat, lexA.feedAll [97, 98] = .ok st ∧
      st.output = [⟨0, 0, 1, none⟩] ∧ st.error = some "unexpected character" ∧
      (st.get).1 = none := by
  exact ⟨_, rfl, rfl, rfl, rfl⟩

/-- C9 amended: once the sticky error is set, put and finish leave the
lexer state unchanged, and get immediately returns none, leaving the
state unchanged as well: lexemes committed before the error are not
retrievable. -/
theorem C9_sticky_error_noops {T MK : Type} [DecidableEq MK] (st : Lexer T MK) (c : Nat)
    (h : st.error.isSome = true) :
    st.put c = .ok st ∧ st.finish = .ok st ∧ st.get = (none, st) := by
  unfold Lexer.put Lexer.finish Lexer.get
  rw [if_pos h, if_pos h, if_pos h]
  exact ⟨rfl, rfl, rfl⟩

/-- Witness for C9: the amended theorem applied to a concrete
sticky-error state holding one committed lexeme. -/
theorem C9_sticky_error_noops_witness :
    lexErrState.error.isSome = true ∧
    (lexErrState.put 99 = .ok lexErrState ∧ lexErrState.finish = .ok lexErrState ∧
     lexErrState.get = (none, lexErrState)) :=
  ⟨rfl, C9_sticky_error_noops lexErrState 99 rfl⟩

/-- Code behavior at the failing input of C3: rules aab (token 0) and
a (token 1), input a a a c fed character by character.  When the last
put returns, two lexemes are in the output queue, but every matcher of
the current mode is dead, a third match (token 1 at position 2) is
recorded in last_accepted and not emitted, and no error is set: the
all_dead flag, initialized once per put and accumulated across the
re-scan after the second emit, was already false when the character c
killed every matcher, so emit was not invoked at that point. -/
theorem C3_emit_skipped_during_rescan :
    ∃ st : Lexer Nat Nat, lexC3.feedAll [97, 97, 97, 99] = .ok st ∧
      st.output = [⟨1, 0, 1, none⟩, ⟨1, 1, 1, none⟩] ∧
      st.error = none ∧
      st.last_accepted = some (⟨1, 2, 1, none⟩, 0) ∧
      st.input = [97, 99] ∧
      (st.modes.getD st.current_mode []).all (fun r => r.matcher.is_dead) = true := by
  exact ⟨_, rfl, rfl, rfl, rfl, rfl, rfl⟩

/-! Well-formedness extraction and the progress (no-panic) lemmas for
the driver loop. -/

theorem wf_iff {T MK : Type} {st : Lexer T MK} : st.wf = true ↔
    (st.current_mode < st.modes.length ∧
     (∀ rs ∈ st.modes, ∀ r ∈ rs, r.to_mode < st.modes.length) ∧
     (∀ lx md, st.last_accepted = some (lx, md) →
        1 ≤ lx.length ∧ lx.length ≤ st.input.length ∧ md < st.modes.length)) := by
  unfold Lexer.wf
  cases hla : st.last_accepted with
  | none =>
    simp [List.all_eq_true]
  | some p =>
    obtain ⟨lx, md⟩ := p
    simp [List.all_eq_true, and_assoc]

theorem stepState_input {T MK : Type} (st : Lexer T MK) (cursor : Nat)
    (rules' : List (Rule T)) : (Lexer.stepState st cursor rules').input = st.input := by
  unfold Lexer.stepState
  cases Lexer.stepAccepted st cursor rules' <;> rfl

theorem stepState_output {T MK : Type} (st : Lexer T MK) (cursor : Nat)
    (rules' : List (Rule T)) : (Lexer.stepState st cursor rules').output = st.output := by
  unfold Lexer.stepState
  cases Lexer.stepAccepted st cursor rules' <;> rfl

theorem stepState_error {T MK : Type} (st : Lexer T MK) (cursor : Nat)
    (rules' : List (Rule T)) : (Lexer.stepState st cursor rules').error = st.error := by
  unfold Lexer.stepState
  cases Lexer.stepAccepted st cursor rules' <;> rfl

theorem stepState_position {T MK : Type} (st : Lexer T MK) (cursor : Nat)
    (rules' : List (Rule T)) : (Lexer.stepState st cursor rules').position = st.position := by
  unfold Lexer.stepState
  cases Lexer.stepAccepted st cursor rules' <;> rfl

theorem stepState_current {T MK : Type} (st : Lexer T MK) (cursor : Nat)
    (rules' : List (Rule T)) : (Lexer.stepState st cursor rules').current_mode = st.current_mode := by
  unfold Lexer.stepState
  cases Lexer.stepAccepted st cursor rules' <;> rfl

theorem stepState_modes {T MK : Type} (st : Lexer T MK) (cursor : Nat)
    (rules' : List (Rule T)) :
    (Lexer.stepState st cursor rules').modes = st.modes.set st.current_mode rules' := by
  unfold Lexer.stepState
  cases Lexer.stepAccepted st cursor rules' <;> rfl

theorem stepState_la {T MK : Type} (st : Lexer T MK) (cursor : Nat)
    (rules' : List (Rule T)) :
    (Lexer.stepState st cursor rules').last_accepted =
      match Lexer.stepAccepted st cursor rules' with
      | some a => some a
      | none => st.last_accepted := by
  unfold Lexer.stepState
  cases Lexer.stepAccepted st cursor rules' <;> rfl

theorem stepAccepted_bounds {T MK : Type} (st : Lexer T MK) (cursor : Nat)
    (rules' : List (Rule T)) (lx : Lexeme T) (md : Nat)
    (h : Lexer.stepAccepted st cursor rules' = some (lx, md)) :
    lx.length = cursor + 1 ∧ ∃ r ∈ rules', md = r.to_mode := by
  unfold Lexer.stepAccepted at h
  cases hf : rules'.find? (fun r => r.matcher.is_accepted) with
  | none => rw [hf] at h; cases h
  | some r =>
    rw [hf, Option.some.injEq, Prod.mk.injEq] at h
    obtain ⟨hlx, hmd⟩ := h
    subst hlx
    exact ⟨rfl, r, List.mem_of_find?_eq_some hf, hmd.symm⟩

theorem stepRules_to_mode {TT : Type} (rules : List (Rule TT)) (c : Nat)
    (r : Rule TT) (hr : r ∈ Lexer.stepRules rules c) : ∃ r0 ∈ rules, r.to_mode = r0.to_mode := by
  rcases List.mem_map.1 hr with ⟨r0, hr0, rfl⟩
  exact ⟨r0, hr0, rfl⟩

theorem stepState_wf {T MK : Type} [DecidableEq MK] (st : Lexer T MK) (cursor : Nat)
    (rules : List (Rule T)) (hwf : st.wf = true) (hcur : cursor < st.input.length)
    (hrules : st.modes[st.current_mode]? = some rules) :
    (Lexer.stepState st cursor (Lexer.stepRules rules st.input[cursor])).wf = true := by
  obtain ⟨hc, hto, hla⟩ := wf_iff.1 hwf
  have hmem : rules ∈ st.modes := by
    have := List.getElem?_eq_some_iff.1 hrules
    rcases this with ⟨hlt, hget⟩
    exact hget ▸ List.getElem_mem hlt
  apply wf_iff.2
  rw [stepState_current, stepState_modes, stepState_input, stepState_la]
  refine ⟨by simpa using hc, ?_, ?_⟩
  · intro rs hrs r hr
    simp only [List.length_set]
    rcases List.mem_or_eq_of_mem_set hrs with hmem2 | hmem2
    · exact hto rs hmem2 r hr
    · subst hmem2
      rcases stepRules_to_mode _ _ r hr with ⟨r0, hr0, heq⟩
      rw [heq]
      exact hto rules hmem r0 hr0
  · intro lx md hsome
    cases hacc : Lexer.stepAccepted st cursor (Lexer.stepRules rules st.input[cursor]) with
    | none =>
      rw [hacc] at hsome
      rcases hla lx md hsome with ⟨h1, h2, h3⟩
      exact ⟨h1, h2, by simpa using h3⟩
    | some a =>
      rw [hacc] at hsome
      rw [Option.some.injEq] at hsome
      subst hsome
      rcases stepAccepted_bounds st cursor _ lx md hacc with ⟨hlen, r, hrmem, hmd⟩
      refine ⟨by omega, by omega, ?_⟩
      simp only [List.length_set]
      rcases stepRules_to_mode _ _ r hrmem with ⟨r0, hr0, heq⟩
      rw [hmd, heq]
      exact hto rules hmem r0 hr0

theorem emit_none {T MK : Type} [DecidableEq MK] (st : Lexer T MK)
    (hla : st.last_accepted = none) :
    st.emit = .ok { st with error := some "unexpected character" } := by
  unfold Lexer.emit
  rw [hla]

theorem emit_progress {T MK : Type} [DecidableEq MK] (st : Lexer T MK)
    (lx : Lexeme T) (md : Nat)
    (hla : st.last_accepted = some (lx, md))
    (hlen2 : lx.length ≤ st.input.length) (hmd : md < st.modes.length)
    (hto : ∀ rs ∈ st.modes, ∀ r ∈ rs, r.to_mode < st.modes.length) :
    ∃ st', st.emit = .ok st' ∧
      st'.output = st.output ++ [lx] ∧ st'.error = st.error ∧
      st'.input = st.input.drop lx.length ∧
      st'.last_accepted = none ∧
      st'.current_mode = md ∧
      st'.modes.length = st.modes.length ∧
      (∀ rs ∈ st'.modes, ∀ r ∈ rs, r.to_mode < st'.modes.length) ∧
      st'.position = st.position + lx.length := by
  unfold Lexer.emit
  rw [hla]
  dsimp only
  rw [if_pos hlen2]
  have hsome : st.modes[md]? = some st.modes[md] := List.getElem?_eq_getElem hmd
  rw [hsome]
  dsimp only
  refine ⟨_, rfl, rfl, rfl, rfl, rfl, rfl, by simp, ?_, rfl⟩
  intro rs hrs r hr
  simp only [List.length_set]
  rcases List.mem_or_eq_of_mem_set hrs with hmem2 | hmem2
  · exact hto rs hmem2 r hr
  · subst hmem2
    rcases List.mem_map.1 hr with ⟨r0, hr0, rfl⟩
    exact hto _ (List.getElem_mem hmd) r0 hr0

theorem lexLoop_succ {T MK : Type} [DecidableEq MK] (fuel : Nat) (st : Lexer T MK)
    (cursor : Nat) (ad : Bool) (h : cursor < st.input.length) (rules : List (Rule T))
    (hrules : st.modes[st.current_mode]? = some rules) :
    Lexer.lexLoop (fuel + 1) st cursor ad =
      (if (ad && (Lexer.stepRules rules (st.input[cursor])).all (fun r => r.matcher.is_dead)) then
        match (Lexer.stepState st cursor (Lexer.stepRules rules (st.input[cursor]))).emit with
        | .error e => .error e
        | .ok st3 =>
            if st3.error.isSome then .ok st3
            else Lexer.lexLoop fuel st3 0
              (ad && (Lexer.stepRules rules (st.input[cursor])).all (fun r => r.matcher.is_dead))
      else
        Lexer.lexLoop fuel (Lexer.stepState st cursor (Lexer.stepRules rules (st.input[cursor])))
          (cursor + 1)
          (ad && (Lexer.stepRules rules (st.input[cursor])).all (fun r => r.matcher.is_dead))) := by
  rw [Lexer.lexLoop]
  rw [dif_pos h, hrules]

theorem lexLoop_exit {T MK : Type} [DecidableEq MK] (fuel : Nat) (st : Lexer T MK)
    (cursor : Nat) (ad : Bool) (h : ¬ cursor < st.input.length) :
    Lexer.lexLoop fuel st cursor ad = .ok st := by
  cases fuel with
  | zero => rfl
  | succ fuel => rw [Lexer.lexLoop, dif_neg h]

theorem lexLoop_progress {T MK : Type} [DecidableEq MK] :
    ∀ (fuel : Nat) (st : Lexer T MK) (cursor : Nat) (ad : Bool),
      st.wf = true → loopMeasure st cursor < fuel →
      ∃ st', Lexer.lexLoop fuel st cursor ad = .ok st' ∧ st'.wf = true ∧
        ∃ tl, st'.output = st.output ++ tl := by
  intro fuel
  induction fuel with
  | zero => intro st cursor ad _ hmu; exact absurd hmu (Nat.not_lt_zero _)
  | succ fuel ih =>
    intro st cursor ad hwf hmu
    obtain ⟨hc, hto, hlab⟩ := wf_iff.1 hwf
    by_cases h : cursor < st.input.length
    case neg =>
      exact ⟨st, lexLoop_exit _ st cursor ad h, hwf, [], by simp⟩
    case pos =>
      obtain ⟨rules, hrules⟩ : ∃ rules, st.modes[st.current_mode]? = some rules :=
        ⟨_, List.getElem?_eq_getElem hc⟩
      rw [lexLoop_succ fuel st cursor ad h rules hrules]
      set rules' := Lexer.stepRules rules (st.input[cursor]) with hrp
      set st2 := Lexer.stepState st cursor rules' with hst2def
      have hwf2 : st2.wf = true := stepState_wf st cursor rules hwf h hrules
      have hout2 : st2.output = st.output := stepState_output ..
      have hinp2 : st2.input = st.input := stepState_input ..
      cases hdead : (ad && rules'.all (fun r => r.matcher.is_dead)) with
      | false =>
        rw [if_neg (by simp)]
        have harith : loopMeasure st2 (cursor + 1) < fuel := by
          unfold loopMeasure at hmu ⊢
          rw [hinp2]
          generalize st.input.length * st.input.length = q at hmu ⊢
          omega
        obtain ⟨st', heq, hwf', tl, hout'⟩ := ih st2 (cursor + 1) false hwf2 harith
        exact ⟨st', heq, hwf', tl, by rw [hout', hout2]⟩
      | true =>
        rw [if_pos rfl]
        cases hla2 : st2.last_accepted with
        | none =>
          rw [emit_none st2 hla2]
          dsimp only
          simp only [Option.isSome_some, if_true]
          exact ⟨_, rfl, hwf2, [], by simpa using hout2⟩
        | some p =>
          obtain ⟨lx, md⟩ := p
          obtain ⟨hc2, hto2, hlab2⟩ := wf_iff.1 hwf2
          obtain ⟨hl1, hl2, hmd⟩ := hlab2 lx md hla2
          obtain ⟨st3, hemit, hout3, herr3, hinp3, hla3, hcur3, hlen3, hto3, hpos3⟩ :=
            emit_progress st2 lx md hla2 hl2 hmd hto2
          rw [hemit]
          dsimp only
          have hwf3 : st3.wf = true := by
            apply wf_iff.2
            refine ⟨?_, hto3, ?_⟩
            · rw [hcur3, hlen3]; exact hmd
            · intro lx' md' hsome; rw [hla3] at hsome; cases hsome
          cases herrb : st3.error.isSome with
          | true =>
            rw [if_pos rfl]
            exact ⟨st3, rfl, hwf3, [lx], by rw [hout3, hout2]⟩
          | false =>
            rw [if_neg (by simp)]
            have harith : loopMeasure st3 0 < fuel := by
              unfold loopMeasure at hmu ⊢
              have hlen : st3.input.length = st.input.length - lx.length := by
                rw [hinp3, hinp2]; simp
              rw [hlen]
              rw [hinp2] at hl2
              obtain ⟨k, hk⟩ : ∃ k, st.input.length = k + 1 := ⟨st.input.length - 1, by omega⟩
              rw [hk] at hmu ⊢
              have hm : k + 1 - lx.length ≤ k := by omega
              have hmm : (k + 1 - lx.length) * (k + 1 - lx.length) ≤ k * k :=
                Nat.mul_le_mul hm hm
              have hexp : (k + 1) * (k + 1) = k * k + 2 * k + 1 := by ring
              rw [hexp] at hmu
              generalize (k + 1 - lx.length) * (k + 1 - lx.length) = mm at hmm ⊢
              generalize k * k = kk at hmm hmu ⊢
              omega
            obtain ⟨st', heq, hwf', tl, hout'⟩ := ih st3 0 true hwf3 harith
            refine ⟨st', heq, hwf', [lx] ++ tl, ?_⟩
            rw [hout', hout3, hout2, List.append_assoc]

theorem put_error {T MK : Type} [DecidableEq MK] (st : Lexer T MK) (c : Nat)
    (h : st.error.isSome = true) : st.put c = .ok st := by
  unfold Lexer.put
  rw [if_pos h]

theorem finish_error {T MK : Type} [DecidableEq MK] (st : Lexer T MK)
    (h : st.error.isSome = true) : st.finish = .ok st := by
  unfold Lexer.finish
  rw [if_pos h]

theorem feedAll_error {T MK : Type} [DecidableEq MK] (cs : List Nat) (st : Lexer T MK)
    (h : st.error.isSome = true) : st.feedAll cs = .ok st := by
  induction cs with
  | nil => rfl
  | cons c cs ih =>
    unfold Lexer.feedAll
    rw [put_error st c h]
    exact ih

theorem put_progress {T MK : Type} [DecidableEq MK] (st : Lexer T MK) (c : Nat)
    (hwf : st.wf = true) :
    ∃ st', st.put c = .ok st' ∧ st'.wf = true ∧ ∃ tl, st'.output = st.output ++ tl := by
  unfold Lexer.put
  by_cases he : st.error.isSome = true
  · rw [if_pos he]; exact ⟨st, rfl, hwf, [], by simp⟩
  · rw [if_neg he]
    unfold Lexer.lex
    set st1 : Lexer T MK := { st with input := st.input ++ [c] } with hdef
    have hwf1 : st1.wf = true := by
      obtain ⟨h1, h2, h3⟩ := wf_iff.1 hwf
      apply wf_iff.2
      refine ⟨h1, h2, ?_⟩
      intro lx md hla
      obtain ⟨a, b, d⟩ := h3 lx md hla
      refine ⟨a, ?_, d⟩
      simp only [hdef, List.length_append]
      omega
    have harith : loopMeasure st1 (st1.input.length - 1) <
        st1.input.length * st1.input.length + st1.input.length + 1 := by
      unfold loopMeasure
      generalize st1.input.length * st1.input.length = q
      omega
    obtain ⟨st', heq, hwf', tl, hout'⟩ := lexLoop_progress _ st1 _ true hwf1 harith
    exact ⟨st', heq, hwf', tl, hout'⟩

theorem finish_progress {T MK : Type} [DecidableEq MK] (st : Lexer T MK)
    (hwf : st.wf = true) :
    ∃ st', st.finish = .ok st' ∧ st'.wf = true ∧ ∃ tl, st'.output = st.output ++ tl := by
  unfold Lexer.finish
  by_cases he : st.error.isSome = true
  · rw [if_pos he]; exact ⟨st, rfl, hwf, [], by simp⟩
  · rw [if_neg he]
    cases hla : st.last_accepted with
    | none =>
      rw [emit_none st hla]
      dsimp only
      by_cases hl : 0 < ({ st with error := some "unexpected character" } : Lexer T MK).input.length
      · rw [if_pos hl]
        exact ⟨_, rfl, hwf, [], by simp⟩
      · rw [if_neg hl]
        exact ⟨_, rfl, hwf, [], by simp⟩
    | some p =>
      obtain ⟨lx, md⟩ := p
      obtain ⟨hcm, hto, hlab⟩ := wf_iff.1 hwf
      obtain ⟨h1, h2, h3⟩ := hlab lx md hla
      obtain ⟨st3, hemit, hout3, herr3, hinp3, hla3, hcur3, hlen3, hto3, hpos3⟩ :=
        emit_progress st lx md hla h2 h3 hto
      rw [hemit]
      dsimp only
      have hwf3 : st3.wf = true := by
        apply wf_iff.2
        refine ⟨?_, hto3, ?_⟩
        · rw [hcur3, hlen3]; exact h3
        · intro lx' md' hsome; rw [hla3] at hsome; cases hsome
      by_cases hl : 0 < st3.input.length
      · rw [if_pos hl]
        exact ⟨_, rfl, hwf3, [lx], by rw [hout3]⟩
      · rw [if_neg hl]
        exact ⟨st3, rfl, hwf3, [lx], by rw [hout3]⟩

theorem feedAll_progress {T MK : Type} [DecidableEq MK] :
    ∀ (cs : List Nat) (st : Lexer T MK), st.wf = true →
      ∃ st', st.feedAll cs = .ok st' ∧ st'.wf = true ∧
        ∃ tl, st'.output = st.output ++ tl := by
  intro cs
  induction cs with
  | nil => intro st hwf; exact ⟨st, rfl, hwf, [], by simp⟩
  | cons c cs ih =>
    intro st hwf
    obtain ⟨st1, h1, hwf1, tl1, ho1⟩ := put_progress st c hwf
    unfold Lexer.feedAll
    rw [h1]
    obtain ⟨st2, h2, hwf2, tl2, ho2⟩ := ih st1 hwf1
    exact ⟨st2, h2, hwf2, tl1 ++ tl2, by rw [ho2, ho1, List.append_assoc]⟩

/-- C10: calling put on a lexer freshly constructed by new, before any
add_rule or set_start_mode call, indexes the empty mode table at
current_mode = 0 and panics (the embedded panic is the error value
"index out of bounds"); and put is total whenever the lexer state is
well formed, in particular whenever the current mode indexes the mode
table, which holds as soon as one mode has been registered. -/
theorem C10_put_on_fresh_lexer_panics (c : Nat) :
    (Lexer.new : Lexer Nat Nat).put c = .error "index out of bounds" ∧
    (∀ {T MK : Type} [DecidableEq MK] (st : Lexer T MK),
      st.wf = true → ∃ st', st.put c = .ok st') := by
  constructor
  · rfl
  · intro T MK _ st hwf
    obtain ⟨st', h, _, _⟩ := put_progress st c hwf
    exact ⟨st', h⟩

/-- Witness for C10: the panic on the fresh lexer at character a, and
totality on the concrete well-formed one-rule lexer. -/
theorem C10_witness :
    (Lexer.new : Lexer Nat Nat).put 97 = .error "index out of bounds" ∧
    lexA.wf = true ∧ ∃ st', lexA.put 97 = .ok st' :=
  ⟨(C10_put_on_fresh_lexer_panics 97).1, by decide,
   (C10_put_on_fresh_lexer_panics 97).2 lexA (by decide)⟩

/-! Helper lemmas for the longest-match theorem: behavior of the
advanced matchers, the dead-state absorption of the derivative, and
the characterization of the longest-match specification. -/

theorem foldl_derivative_empty (w : List Nat) :
    w.foldl Regex.derivative .Empty = .Empty := by
  induction w with
  | nil => rfl
  | cons c cs ih => exact ih

theorem is_empty_not_nullable {r : Regex} (h : r.is_empty = true) :
    r.nullable = false := by
  rw [is_empty_iff.1 h]; rfl

theorem advanceRules_nil {T : Type} (rs : List (Rule T))
    (hfresh : ∀ r ∈ rs, r.matcher.state = r.matcher.regex) :
    advanceRules rs [] = rs := by
  unfold advanceRules
  conv_rhs => rw [← List.map_id rs]
  apply List.map_congr_left
  intro r hr
  have := hfresh r hr
  simp only [List.foldl_nil, id]
  cases r with
  | mk tok ma ks tm =>
    cases ma with
    | mk re stt =>
      simp only at this
      rw [this]

theorem advanceRules_snoc {T : Type} (rs : List (Rule T)) (w : List Nat) (c : Nat) :
    Lexer.stepRules (advanceRules rs w) c = advanceRules rs (w ++ [c]) := by
  unfold Lexer.stepRules advanceRules
  rw [List.map_map]
  apply List.map_congr_left
  intro r hr
  simp [Matcher.put, List.foldl_append]

theorem advanceRules_find? {T : Type} (rs : List (Rule T)) (w : List Nat) :
    (advanceRules rs w).find? (fun r => r.matcher.is_accepted) =
      ((rs.find? (fun r => ruleAccepts r w)).map (fun r =>
        { r with matcher := { regex := r.matcher.regex,
                              state := w.foldl Regex.derivative r.matcher.regex } })) := by
  unfold advanceRules
  rw [List.find?_map]
  rfl

theorem advanceRules_all_dead {T : Type} (rs : List (Rule T)) (w : List Nat) :
    (advanceRules rs w).all (fun r => r.matcher.is_dead) = allDeadAfter rs w := by
  unfold advanceRules allDeadAfter
  rw [List.all_map]
  rfl

theorem allDead_no_accept {T : Type} (rs : List (Rule T)) (w : List Nat)
    (h : allDeadAfter rs w = true) :
    rs.find? (fun r => ruleAccepts r w) = none := by
  rw [List.find?_eq_none]
  intro r hr
  have hd := (List.all_eq_true.1 h) r hr
  simp only [ruleAccepts, Bool.not_eq_true]
  exact is_empty_not_nullable hd

theorem allDead_extend {T : Type} (rs : List (Rule T)) (u v' : List Nat)
    (h : allDeadAfter rs u = true) : allDeadAfter rs (u ++ v') = true := by
  unfold allDeadAfter at h ⊢
  rw [List.all_eq_true] at h ⊢
  intro r hr
  have hd := h r hr
  simp only [List.foldl_append]
  rw [is_empty_iff.1 hd, foldl_derivative_empty]
  rfl

theorem bestAux_bounds {T : Type} (rs : List (Rule T)) (w : List Nat) :
    ∀ (L l : Nat) (r : Rule T), bestAux rs w L = some (l, r) → 1 ≤ l ∧ l ≤ L := by
  intro L
  induction L with
  | zero => intro l r h; cases h
  | succ L ih =>
    intro l r h
    unfold bestAux at h
    cases hf : firstAccepting rs (w.take (L + 1)) with
    | some r0 =>
      rw [hf] at h
      injection h with h'
      injection h' with h1 h2
      omega
    | none =>
      rw [hf] at h
      have := ih l r h
      omega

theorem bestAux_first {T : Type} (rs : List (Rule T)) (w : List Nat) :
    ∀ (L l : Nat) (r : Rule T), bestAux rs w L = some (l, r) →
      firstAccepting rs (w.take l) = some r := by
  intro L
  induction L with
  | zero => intro l r h; cases h
  | succ L ih =>
    intro l r h
    unfold bestAux at h
    cases hf : firstAccepting rs (w.take (L + 1)) with
    | some r0 =>
      rw [hf] at h
      injection h with h'
      injection h' with h1 h2
      subst h1; subst h2
      exact hf
    | none =>
      rw [hf] at h
      exact ih l r h

theorem bestAux_max {T : Type} (rs : List (Rule T)) (w : List Nat) :
    ∀ (L l : Nat) (r : Rule T), bestAux rs w L = some (l, r) →
      ∀ l', l < l' → l' ≤ L → firstAccepting rs (w.take l') = none := by
  intro L
  induction L with
  | zero => intro l r h; cases h
  | succ L ih =>
    intro l r h l' h1 h2
    unfold bestAux at h
    cases hf : firstAccepting rs (w.take (L + 1)) with
    | some r0 =>
      rw [hf] at h
      injection h with h'
      injection h' with he1 he2
      omega
    | none =>
      rw [hf] at h
      by_cases hl : l' = L + 1
      · subst hl; exact hf
      · exact ih l r h l' h1 (by omega)

theorem bestAux_none {T : Type} (rs : List (Rule T)) (w : List Nat) :
    ∀ (L : Nat), bestAux rs w L = none →
      ∀ l', 1 ≤ l' → l' ≤ L → firstAccepting rs (w.take l') = none := by
  intro L
  induction L with
  | zero => intro h l' h1 h2; omega
  | succ L ih =>
    intro h l' h1 h2
    unfold bestAux at h
    cases hf : firstAccepting rs (w.take (L + 1)) with
    | some r0 => rw [hf] at h; cases h
    | none =>
      rw [hf] at h
      by_cases hl : l' = L + 1
      · subst hl; exact hf
      · exact ih h l' h1 (by omega)

theorem bestAux_take_agree {T : Type} (rs : List (Rule T)) (w v' : List Nat) :
    ∀ (L : Nat), L ≤ w.length → bestAux rs (w ++ v') L = bestAux rs w L := by
  intro L
  induction L with
  | zero => intro _; rfl
  | succ L ih =>
    intro hL
    unfold bestAux
    rw [List.take_append_of_le_length hL]
    rw [ih (by omega)]

theorem bestMatch_extend_dead {T : Type} (rs : List (Rule T)) (w : List Nat) (c : Nat)
    (v' : List Nat) (hdead : allDeadAfter rs (w ++ [c]) = true) :
    bestMatch rs (w ++ c :: v') = bestMatch rs w := by
  have hnone : ∀ l', w.length + 1 ≤ l' →
      firstAccepting rs ((w ++ c :: v').take l') = none := by
    intro l' hl'
    have hsplit : (w ++ c :: v').take l' =
        (w ++ [c]) ++ (v'.take (l' - (w.length + 1))) := by
      have h1 : l' = (w.length + 1) + (l' - (w.length + 1)) := by omega
      have h2 : (w ++ [c]).length = w.length + 1 := by simp
      conv_lhs => rw [List.append_cons w c v', h1, List.take_add]
      rw [List.take_left' h2, List.drop_left' h2]
    rw [hsplit]
    unfold firstAccepting
    exact allDead_no_accept rs _ (allDead_extend rs (w ++ [c]) _ hdead)
  have hchop : ∀ L, w.length ≤ L →
      bestAux rs (w ++ c :: v') L = bestAux rs (w ++ c :: v') w.length := by
    intro L
    induction L with
    | zero =>
      intro h0
      have he : w.length = 0 := Nat.le_zero.mp h0
      rw [he]
    | succ L ih =>
      intro hL
      by_cases he : w.length = L + 1
      · rw [he]
      · have hlt : w.length ≤ L := by omega
        have hstep : bestAux rs (w ++ c :: v') (L + 1) = bestAux rs (w ++ c :: v') L := by
          conv_lhs => unfold bestAux
          rw [hnone (L + 1) (by omega)]
        rw [hstep]
        exact ih hlt
  unfold bestMatch
  rw [hchop (w ++ c :: v').length (by simp)]
  have htake : ∀ L, L ≤ w.length →
      bestAux rs (w ++ c :: v') L = bestAux rs w L := by
    intro L hL
    rw [List.append_cons w c v']
    exact bestAux_take_agree rs (w ++ [c]) v' L (by simp; omega)
      |>.trans (bestAux_take_agree rs w [c] L hL)
  exact htake w.length (le_refl _)

theorem specLast_snoc_none {T : Type} (rs : List (Rule T)) (w : List Nat) (c : Nat)
    (p0 : Nat) (hnone : firstAccepting rs (w ++ [c]) = none) :
    specLast rs (w ++ [c]) p0 = specLast rs w p0 := by
  have hlen : (w ++ [c]).length = w.length + 1 := by simp
  have htake : (w ++ [c]).take (w.length + 1) = w ++ [c] := by
    rw [← hlen, List.take_length]
  have hbm : bestMatch rs (w ++ [c]) = bestAux rs w w.length := by
    unfold bestMatch
    rw [hlen]
    have hstep : bestAux rs (w ++ [c]) (w.length + 1) = bestAux rs (w ++ [c]) w.length := by
      conv_lhs => unfold bestAux
      rw [htake, hnone]
    rw [hstep]
    exact bestAux_take_agree rs w [c] w.length (le_refl _)
  unfold specLast
  rw [hbm]
  conv_rhs => unfold bestMatch
  cases hb : bestAux rs w w.length with
  | none => rfl
  | some p =>
    obtain ⟨l, r⟩ := p
    obtain ⟨h1, h2⟩ := bestAux_bounds rs w w.length l r hb
    simp only [Option.map_some']
    unfold specLexeme
    rw [List.take_append_of_le_length h2]

theorem specLast_snoc_some {T : Type} (rs : List (Rule T)) (w : List Nat) (c : Nat)
    (p0 : Nat) (r0 : Rule T)
    (hsome : firstAccepting rs (w ++ [c]) = some r0) :
    specLast rs (w ++ [c]) p0 =
      some (specLexeme p0 (w.length + 1) (w ++ [c]) r0, r0.to_mode) := by
  have hlen : (w ++ [c]).length = w.length + 1 := by simp
  have htake : (w ++ [c]).take (w.length + 1) = w ++ [c] := by
    rw [← hlen, List.take_length]
  unfold specLast bestMatch
  rw [hlen]
  have hstep : bestAux rs (w ++ [c]) (w.length + 1) = some (w.length + 1, r0) := by
    conv_lhs => unfold bestAux
    rw [htake, hsome]
  rw [hstep]
  rfl

theorem preemit_step_core {T MK : Type} [DecidableEq MK]
    {tbl : List (List (Rule T))} {m p0 : Nat} {rs0 : List (Rule T)} {w : List Nat}
    {st : Lexer T MK} (inv : PreEmit tbl m p0 rs0 w st) (hm : m < tbl.length) (c : Nat) :
    ∃ st2 : Lexer T MK,
      (∀ fuel : Nat,
        Lexer.lexLoop (fuel + 1) { st with input := st.input ++ [c] } w.length true =
          (if allDeadAfter rs0 (w ++ [c]) then
            match st2.emit with
            | .error e => .error e
            | .ok st3 =>
                if st3.error.isSome then .ok st3
                else Lexer.lexLoop fuel st3 0 (allDeadAfter rs0 (w ++ [c]))
          else
            Lexer.lexLoop fuel st2 (w.length + 1) (allDeadAfter rs0 (w ++ [c])))) ∧
      st2.modes.length = tbl.length ∧
      st2.modes[m]? = some (advanceRules rs0 (w ++ [c])) ∧
      (∀ j, j ≠ m → st2.modes[j]? = tbl[j]?) ∧
      st2.current_mode = m ∧
      st2.input = w ++ [c] ∧
      st2.position = p0 ∧
      st2.output = [] ∧
      st2.error = none ∧
      st2.last_accepted = specLast rs0 (w ++ [c]) p0 := by
  have hinp1 : ({ st with input := st.input ++ [c] } : Lexer T MK).input = w ++ [c] := by
    simp [inv.inp]
  set st1 : Lexer T MK := { st with input := st.input ++ [c] } with hst1
  have hlen1 : st1.input.length = w.length + 1 := by rw [hinp1]; simp
  have hlt : w.length < st1.input.length := by omega
  have hcur1 : st1.current_mode = m := inv.cur
  have hrules1 : st1.modes[st1.current_mode]? = some (advanceRules rs0 w) := by
    rw [hcur1]
    exact inv.modes_at
  have hchar : st1.input[w.length] = c := by
    rw [List.getElem_of_eq hinp1]
    exact List.getElem_concat_length w c w.length rfl (by simp)
  have hrn : Lexer.stepRules (advanceRules rs0 w) (st1.input[w.length]) =
      advanceRules rs0 (w ++ [c]) := by
    rw [hchar]
    exact advanceRules_snoc rs0 w c
  have hall : (advanceRules rs0 (w ++ [c])).all (fun r => r.matcher.is_dead) =
      allDeadAfter rs0 (w ++ [c]) := advanceRules_all_dead rs0 (w ++ [c])
  have hmlen : m < st.modes.length := by rw [inv.modes_len]; exact hm
  refine ⟨Lexer.stepState st1 w.length (advanceRules rs0 (w ++ [c])),
    ?_, ?_, ?_, ?_, ?_, ?_, ?_, ?_, ?_, ?_⟩
  · intro fuel
    rw [lexLoop_succ fuel st1 w.length true hlt (advanceRules rs0 w) hrules1]
    rw [hrn, hall, Bool.true_and]
  · rw [stepState_modes]
    simp [inv.modes_len]
  · rw [stepState_modes, hcur1]
    exact List.getElem?_set_self hmlen
  · intro j hj
    rw [stepState_modes, hcur1]
    rw [List.getElem?_set_ne (fun he => hj he.symm)]
    exact inv.modes_ne j hj
  · rw [stepState_current]; exact hcur1
  · rw [stepState_input]; exact hinp1
  · rw [stepState_position]; exact inv.pos
  · rw [stepState_output]; exact inv.out
  · rw [stepState_error]; exact inv.err
  · rw [stepState_la]
    have hfind := advanceRules_find? rs0 (w ++ [c])
    cases hf : rs0.find? (fun r => ruleAccepts r (w ++ [c])) with
    | none =>
      have hacc : Lexer.stepAccepted st1 w.length (advanceRules rs0 (w ++ [c])) = none := by
        unfold Lexer.stepAccepted
        rw [hfind, hf]
        rfl
      rw [hacc]
      have hfa : firstAccepting rs0 (w ++ [c]) = none := hf
      rw [show st1.last_accepted = st.last_accepted from rfl, inv.la]
      exact (specLast_snoc_none rs0 w c p0 hfa).symm
    | some r0 =>
      have hacc : Lexer.stepAccepted st1 w.length (advanceRules rs0 (w ++ [c])) =
          some (⟨r0.token, st1.position, w.length + 1,
                 if r0.keep_span then some (st1.input.take (w.length + 1)) else none⟩,
                r0.to_mode) := by
        unfold Lexer.stepAccepted
        rw [hfind, hf]
        rfl
      rw [hacc]
      have hfa : firstAccepting rs0 (w ++ [c]) = some r0 := hf
      rw [specLast_snoc_some rs0 w c p0 r0 hfa]
      unfold specLexeme
      rw [show st1.position = p0 from inv.pos, hinp1]

theorem preemit_put_eq {T MK : Type} [DecidableEq MK]
    {tbl : List (List (Rule T))} {m p0 : Nat} {rs0 : List (Rule T)} {w : List Nat}
    {st : Lexer T MK} (inv : PreEmit tbl m p0 rs0 w st) (c : Nat) :
    st.put c = Lexer.lexLoop ((w.length + 1) * (w.length + 1) + (w.length + 1) + 1)
      { st with input := st.input ++ [c] } w.length true := by
  unfold Lexer.put
  rw [if_neg (by rw [inv.err]; simp)]
  unfold Lexer.lex
  have hlen1 : ({ st with input := st.input ++ [c] } : Lexer T MK).input.length =
      w.length + 1 := by
    simp [inv.inp]
  rw [hlen1, Nat.add_sub_cancel]

theorem preemit_put_alive {T MK : Type} [DecidableEq MK]
    {tbl : List (List (Rule T))} {m p0 : Nat} {rs0 : List (Rule T)} {w : List Nat}
    {st : Lexer T MK} (inv : PreEmit tbl m p0 rs0 w st) (hm : m < tbl.length) (c : Nat)
    (halive : allDeadAfter rs0 (w ++ [c]) = false) :
    ∃ st', st.put c = .ok st' ∧ PreEmit tbl m p0 rs0 (w ++ [c]) st' := by
  obtain ⟨st2, heq, h1, h2, h3, h4, h5, h6, h7, h8, h9⟩ := preemit_step_core inv hm c
  refine ⟨st2, ?_, ?_⟩
  · rw [preemit_put_eq inv c, heq ((w.length + 1) * (w.length + 1) + (w.length + 1))]
    rw [halive]
    rw [if_neg (by simp)]
    apply lexLoop_exit
    rw [h5]
    simp
  · refine ⟨h1, h2, h3, h4, h5, h6, h7, h8, h9, ?_⟩
    intro k hk1 hk2
    by_cases hkw : k ≤ w.length
    · rw [List.take_append_of_le_length hkw]
      exact inv.alive k hk1 hkw
    · have hke : k = w.length + 1 := by
        simp only [List.length_append, List.length_cons, List.length_nil] at hk2
        omega
      subst hke
      have htake : (w ++ [c]).take (w.length + 1) = w ++ [c] := by
        have hl : (w ++ [c]).length = w.length + 1 := by simp
        rw [← hl, List.take_length]
      rw [htake]
      exact halive

theorem preemit_put_dead_commit {T MK : Type} [DecidableEq MK]
    {tbl : List (List (Rule T))} {m p0 : Nat} {rs0 : List (Rule T)} {w : List Nat}
    {st : Lexer T MK} (inv : PreEmit tbl m p0 rs0 w st) (hm : m < tbl.length) (c : Nat)
    (hdead : allDeadAfter rs0 (w ++ [c]) = true)
    (hto_tbl : ∀ rs ∈ tbl, ∀ r ∈ rs, r.to_mode < tbl.length)
    (hrs0to : ∀ r ∈ rs0, r.to_mode < tbl.length)
    {l : Nat} {r0 : Rule T} (hbm : bestMatch rs0 w = some (l, r0)) :
    ∃ st' tl, st.put c = .ok st' ∧ st'.wf = true ∧
      st'.output = specLexeme p0 l w r0 :: tl := by
  obtain ⟨st2, heq, h1, h2, h3, h4, h5, h6, h7, h8, h9⟩ := preemit_step_core inv hm c
  have hfa : firstAccepting rs0 (w ++ [c]) = none := allDead_no_accept rs0 _ hdead
  have hla2 : st2.last_accepted = some (specLexeme p0 l w r0, r0.to_mode) := by
    rw [h9, specLast_snoc_none rs0 w c p0 hfa]
    unfold specLast
    rw [hbm]
    rfl
  have hbounds := bestAux_bounds rs0 w w.length l r0 hbm
  have hr0mem : r0 ∈ rs0 := List.mem_of_find?_eq_some (bestAux_first rs0 w w.length l r0 hbm)
  have hto2 : ∀ rs ∈ st2.modes, ∀ r ∈ rs, r.to_mode < st2.modes.length := by
    intro rs hrs r hr
    rw [h1]
    rcases List.mem_iff_getElem?.1 hrs with ⟨j, hj⟩
    by_cases hjm : j = m
    · subst hjm
      rw [h2] at hj
      injection hj with hj
      subst hj
      rcases List.mem_map.1 hr with ⟨rr, hrr, rfl⟩
      exact hrs0to rr hrr
    · rw [h3 j hjm] at hj
      have hmem : rs ∈ tbl := by
        rcases List.getElem?_eq_some_iff.1 hj with ⟨hlt2, hg⟩
        exact hg ▸ List.getElem_mem hlt2
      exact hto_tbl rs hmem r hr
  have hmd : r0.to_mode < st2.modes.length := by rw [h1]; exact hrs0to r0 hr0mem
  have hlenle : (specLexeme p0 l w r0).length ≤ st2.input.length := by
    rw [h5]
    have hspec : (specLexeme p0 l w r0).length = l := rfl
    rw [hspec]
    simp only [List.length_append, List.length_cons, List.length_nil]
    omega
  obtain ⟨st3, hemit, hout3, herr3, hinp3, hla3, hcur3, hlen3, hto3, hpos3⟩ :=
    emit_progress st2 _ _ hla2 hlenle hmd hto2
  have hwf3 : st3.wf = true := by
    apply wf_iff.2
    refine ⟨?_, hto3, ?_⟩
    · rw [hcur3, hlen3]; exact hmd
    · intro lx' md' hsome; rw [hla3] at hsome; cases hsome
  have harith : loopMeasure st3 0 < (w.length + 1) * (w.length + 1) + (w.length + 1) := by
    unfold loopMeasure
    have hl3 : st3.input.length = (w.length + 1) - l := by
      rw [hinp3, h5]
      have hspec : (specLexeme p0 l w r0).length = l := rfl
      rw [hspec]
      simp
    rw [hl3]
    have h1' : 1 ≤ l := hbounds.1
    have h2' : l ≤ w.length := hbounds.2
    have hm' : (w.length + 1) - l ≤ w.length := by omega
    have hmm : ((w.length + 1) - l) * ((w.length + 1) - l) ≤ w.length * w.length :=
      Nat.mul_le_mul hm' hm'
    have hexp : (w.length + 1) * (w.length + 1) = w.length * w.length + 2 * w.length + 1 := by
      ring
    rw [hexp]
    generalize ((w.length + 1) - l) * ((w.length + 1) - l) = mm at hmm ⊢
    generalize w.length * w.length = kk at hmm ⊢
    omega
  obtain ⟨st4, hloop, hwf4, tl4, hout4⟩ :=
    lexLoop_progress ((w.length + 1) * (w.length + 1) + (w.length + 1)) st3 0 true hwf3 harith
  refine ⟨st4, tl4, ?_, hwf4, ?_⟩
  · rw [preemit_put_eq inv c, heq ((w.length + 1) * (w.length + 1) + (w.length + 1))]
    rw [hdead, if_pos rfl, hemit]
    dsimp only
    rw [if_neg (by rw [herr3, h8]; simp)]
    exact hloop
  · rw [hout4, hout3, h7]
    simp

theorem preemit_put_dead_error {T MK : Type} [DecidableEq MK]
    {tbl : List (List (Rule T))} {m p0 : Nat} {rs0 : List (Rule T)} {w : List Nat}
    {st : Lexer T MK} (inv : PreEmit tbl m p0 rs0 w st) (hm : m < tbl.length) (c : Nat)
    (hdead : allDeadAfter rs0 (w ++ [c]) = true)
    (hbm : bestMatch rs0 w = none) :
    ∃ st', st.put c = .ok st' ∧ st'.error.isSome = true ∧ st'.output = [] := by
  obtain ⟨st2, heq, h1, h2, h3, h4, h5, h6, h7, h8, h9⟩ := preemit_step_core inv hm c
  have hfa : firstAccepting rs0 (w ++ [c]) = none := allDead_no_accept rs0 _ hdead
  have hla2 : st2.last_accepted = none := by
    rw [h9, specLast_snoc_none rs0 w c p0 hfa]
    unfold specLast
    rw [hbm]
    rfl
  refine ⟨{ st2 with error := some "unexpected character" }, ?_, rfl, ?_⟩
  · rw [preemit_put_eq inv c, heq ((w.length + 1) * (w.length + 1) + (w.length + 1))]
    rw [hdead, if_pos rfl, emit_none st2 hla2]
    dsimp only
    simp only [Option.isSome_some, if_true]
  · rw [show ({ st2 with error := some "unexpected character" } : Lexer T MK).output =
        st2.output from rfl, h7]

theorem preemit_to_bound {T MK : Type} [DecidableEq MK]
    {tbl : List (List (Rule T))} {m p0 : Nat} {rs0 : List (Rule T)} {w : List Nat}
    {st : Lexer T MK} (inv : PreEmit tbl m p0 rs0 w st)
    (hto_tbl : ∀ rs ∈ tbl, ∀ r ∈ rs, r.to_mode < tbl.length)
    (hrs0to : ∀ r ∈ rs0, r.to_mode < tbl.length) :
    ∀ rs ∈ st.modes, ∀ r ∈ rs, r.to_mode < st.modes.length := by
  intro rs hrs r hr
  rw [inv.modes_len]
  rcases List.mem_iff_getElem?.1 hrs with ⟨j, hj⟩
  by_cases hjm : j = m
  · subst hjm
    rw [inv.modes_at] at hj
    injection hj with hj
    subst hj
    rcases List.mem_map.1 hr with ⟨rr, hrr, rfl⟩
    exact hrs0to rr hrr
  · rw [inv.modes_ne j hjm] at hj
    have hmem : rs ∈ tbl := by
      rcases List.getElem?_eq_some_iff.1 hj with ⟨hlt2, hg⟩
      exact hg ▸ List.getElem_mem hlt2
    exact hto_tbl rs hmem r hr

theorem preemit_finish {T MK : Type} [DecidableEq MK]
    {tbl : List (List (Rule T))} {m p0 : Nat} {rs0 : List (Rule T)} {w : List Nat}
    {st : Lexer T MK} (inv : PreEmit tbl m p0 rs0 w st)
    (hto_tbl : ∀ rs ∈ tbl, ∀ r ∈ rs, r.to_mode < tbl.length)
    (hrs0to : ∀ r ∈ rs0, r.to_mode < tbl.length) :
    ∃ st', st.finish = .ok st' ∧
      ((bestMatch rs0 w = none ∧ st'.output = []) ∨
       (∃ l r0 tl, bestMatch rs0 w = some (l, r0) ∧
          st'.output = specLexeme p0 l w r0 :: tl)) := by
  unfold Lexer.finish
  rw [if_neg (by rw [inv.err]; simp)]
  cases hbm : bestMatch rs0 w with
  | none =>
    have hla : st.last_accepted = none := by
      rw [inv.la]; unfold specLast; rw [hbm]; rfl
    rw [emit_none st hla]
    dsimp only
    refine ⟨_, rfl, Or.inl ⟨rfl, ?_⟩⟩
    split <;> exact inv.out
  | some p =>
    obtain ⟨l, r0⟩ := p
    have hla : st.last_accepted = some (specLexeme p0 l w r0, r0.to_mode) := by
      rw [inv.la]; unfold specLast; rw [hbm]; rfl
    have hbounds := bestAux_bounds rs0 w w.length l r0 hbm
    have hr0mem : r0 ∈ rs0 :=
      List.mem_of_find?_eq_some (bestAux_first rs0 w w.length l r0 hbm)
    have hto_st := preemit_to_bound inv hto_tbl hrs0to
    have hmd : r0.to_mode < st.modes.length := by
      rw [inv.modes_len]; exact hrs0to r0 hr0mem
    have hlenle : (specLexeme p0 l w r0).length ≤ st.input.length := by
      rw [inv.inp]
      exact hbounds.2
    obtain ⟨st3, hemit, hout3, herr3, hinp3, hla3, hcur3, hlen3, hto3, hpos3⟩ :=
      emit_progress st _ _ hla hlenle hmd hto_st
    rw [hemit]
    dsimp only
    refine ⟨_, rfl, Or.inr ⟨l, r0, [], rfl, ?_⟩⟩
    split
    · dsimp only
      rw [hout3, inv.out]
      rfl
    · rw [hout3, inv.out]
      rfl

theorem preemit_run {T MK : Type} [DecidableEq MK]
    {tbl : List (List (Rule T))} {m p0 : Nat} {rs0 : List (Rule T)}
    (hm : m < tbl.length)
    (hto_tbl : ∀ rs ∈ tbl, ∀ r ∈ rs, r.to_mode < tbl.length)
    (hrs0to : ∀ r ∈ rs0, r.to_mode < tbl.length) :
    ∀ (cs w : List Nat) (st : Lexer T MK), PreEmit tbl m p0 rs0 w st →
      ∀ st', st.runAll cs = .ok st' →
      ∀ lx tl, st'.output = lx :: tl →
      ∃ l r0, bestMatch rs0 (w ++ cs) = some (l, r0) ∧
        lx = specLexeme p0 l (w ++ cs) r0 := by
  intro cs
  induction cs with
  | nil =>
    intro w st inv st' hrun lx tl hout
    obtain ⟨stf, hfin, hcase⟩ := preemit_finish inv hto_tbl hrs0to
    unfold Lexer.runAll Lexer.feedAll at hrun
    dsimp only at hrun
    rw [hfin] at hrun
    injection hrun with hrun
    subst hrun
    rcases hcase with ⟨hbm, hout0⟩ | ⟨l, r0, tl0, hbm, hout0⟩
    · rw [hout0] at hout; cases hout
    · rw [hout0] at hout
      injection hout with h1 h2
      subst h1
      exact ⟨l, r0, by simpa using hbm, by simp⟩
  | cons c cs ih =>
    intro w st inv st' hrun lx tl hout
    cases hd : allDeadAfter rs0 (w ++ [c]) with
    | false =>
      obtain ⟨st1, hput, inv1⟩ := preemit_put_alive inv hm c hd
      have hrun1 : st1.runAll cs = .ok st' := by
        unfold Lexer.runAll at hrun ⊢
        conv at hrun => lhs; rw [Lexer.feedAll]
        rw [hput] at hrun
        exact hrun
      obtain ⟨l, r0, hbm, hlx⟩ := ih (w ++ [c]) st1 inv1 st' hrun1 lx tl hout
      have hrearr : (w ++ [c]) ++ cs = w ++ c :: cs := by simp
      refine ⟨l, r0, ?_, ?_⟩
      · rw [← hrearr]; exact hbm
      · rw [hlx, hrearr]
    | true =>
      cases hbm : bestMatch rs0 w with
      | none =>
        obtain ⟨st1, hput, herr1, hout1⟩ := preemit_put_dead_error inv hm c hd hbm
        have hfeed : st1.feedAll cs = .ok st1 := feedAll_error cs st1 herr1
        have hfin : st1.finish = .ok st1 := finish_error st1 herr1
        have hst' : st' = st1 := by
          unfold Lexer.runAll at hrun
          conv at hrun => lhs; rw [Lexer.feedAll]
          rw [hput] at hrun
          dsimp only at hrun
          rw [hfeed] at hrun
          dsimp only at hrun
          rw [hfin] at hrun
          injection hrun with h
          exact h.symm
        rw [hst', hout1] at hout
        cases hout
      | some p =>
        obtain ⟨l, r0⟩ := p
        obtain ⟨st1, tl1, hput, hwf1, hout1⟩ :=
          preemit_put_dead_commit inv hm c hd hto_tbl hrs0to hbm
        obtain ⟨st2f, hfeed, hwf2f, tl2, hout2⟩ := feedAll_progress cs st1 hwf1
        obtain ⟨st3f, hfin, hwf3f, tl3, hout3⟩ := finish_progress st2f hwf2f
        have hst' : st' = st3f := by
          unfold Lexer.runAll at hrun
          conv at hrun => lhs; rw [Lexer.feedAll]
          rw [hput] at hrun
          dsimp only at hrun
          rw [hfeed] at hrun
          dsimp only at hrun
          rw [hfin] at hrun
          injection hrun with h
          exact h.symm
        have hchain : st3f.output = specLexeme p0 l w r0 :: (tl1 ++ tl2 ++ tl3) := by
          rw [hout3, hout2, hout1]
          simp
        rw [hst', hchain] at hout
        injection hout with h1 h2
        subst h1
        have hbounds := bestAux_bounds rs0 w w.length l r0 hbm
        refine ⟨l, r0, ?_, ?_⟩
        · rw [bestMatch_extend_dead rs0 w c cs hd]
          exact hbm
        · unfold specLexeme
          rw [List.take_append_of_le_length hbounds.2]

/-- C1: maximal munch and declaration-order tiebreak.  Start from any
lexer whose current mode holds the rule list rs0 with fresh matchers
(every rule table built through add_rule and reset satisfies the
hypotheses), feed any input w character by character through put and
call finish.  If a lexeme was emitted, the first lexeme of the output
queue has as its length the largest l such that some rule of the
current mode accepts the first l characters of w, and its kind is the
token of the earliest rule in declaration order accepting that longest
prefix.  Acceptance here is the matcher semantics (iterated derivative
is nullable), which coincides with membership in the rule's language
by foldl_derivative_lang. -/
theorem C1_maximal_munch {T MK : Type} [DecidableEq MK]
    (st0 : Lexer T MK) (w : List Nat) (rs0 : List (Rule T))
    (hrs : st0.modes[st0.current_mode]? = some rs0)
    (hfresh : ∀ rs ∈ st0.modes, ∀ r ∈ rs, r.matcher.state = r.matcher.regex)
    (hto : ∀ rs ∈ st0.modes, ∀ r ∈ rs, r.to_mode < st0.modes.length)
    (hinp : st0.input = []) (hout : st0.output = []) (hla : st0.last_accepted = none)
    (herr : st0.error = none)
    (st' : Lexer T MK) (hrun : st0.runAll w = .ok st')
    (lx : Lexeme T) (tl : List (Lexeme T)) (hout' : st'.output = lx :: tl) :
    anyAccepting rs0 (w.take lx.length) = true ∧
    (∀ l, l ≤ w.length → anyAccepting rs0 (w.take l) = true → l ≤ lx.length) ∧
    ∃ r0, firstAccepting rs0 (w.take lx.length) = some r0 ∧ lx.token = r0.token := by
  have hm : st0.current_mode < st0.modes.length := (List.getElem?_eq_some_iff.1 hrs).1
  have hrs0mem : rs0 ∈ st0.modes := by
    rcases List.getElem?_eq_some_iff.1 hrs with ⟨hlt, hg⟩
    exact hg ▸ List.getElem_mem hlt
  have hrs0to : ∀ r ∈ rs0, r.to_mode < st0.modes.length := fun r hr => hto rs0 hrs0mem r hr
  have inv : PreEmit st0.modes st0.current_mode st0.position rs0 [] st0 := by
    refine ⟨rfl, ?_, fun j hj => rfl, rfl, hinp, rfl, hout, herr, ?_, ?_⟩
    · rw [advanceRules_nil rs0 (fun r hr => hfresh rs0 hrs0mem r hr)]
      exact hrs
    · rw [hla]; rfl
    · intro k hk1 hk2
      simp only [List.length_nil, Nat.le_zero] at hk2
      subst hk2
      exact absurd hk1 (by decide)
  obtain ⟨l, r0, hbm, hlx⟩ := preemit_run hm hto hrs0to w [] st0 inv st' hrun lx tl hout'
  rw [List.nil_append] at hbm hlx
  have hbounds := bestAux_bounds rs0 w w.length l r0 hbm
  have hfirst := bestAux_first rs0 w w.length l r0 hbm
  have hlxlen : lx.length = l := by rw [hlx]; rfl
  have hfind : rs0.find? (fun r => ruleAccepts r (w.take l)) = some r0 := hfirst
  refine ⟨?_, ?_, ?_⟩
  · rw [hlxlen]
    unfold anyAccepting
    rw [List.any_eq_true]
    refine ⟨r0, List.mem_of_find?_eq_some hfind, ?_⟩
    have := List.find?_some hfind
    exact this
  · intro l' hl'2 hacc
    rw [hlxlen]
    by_contra hgt
    push_neg at hgt
    have hnone := bestAux_max rs0 w w.length l r0 hbm l' hgt hl'2
    unfold anyAccepting at hacc
    rw [List.any_eq_true] at hacc
    obtain ⟨r, hrmem, hracc⟩ := hacc
    unfold firstAccepting at hnone
    rw [List.find?_eq_none] at hnone
    exact hnone r hrmem hracc
  · rw [hlxlen]
    exact ⟨r0, hfirst, by rw [hlx]; rfl⟩

/-- Witness for C1: the one-rule lexer on the character a, fed the
input a b: one lexeme is emitted, of length 1 and token 0, and the
conclusions of the theorem hold at it. -/
theorem C1_witness :
    ∃ st' : Lexer Nat Nat, lexA.runAll [97, 98] = .ok st' ∧
      st'.output = [⟨0, 0, 1, none⟩] ∧
      (anyAccepting [⟨0, Matcher.new (Regex.char 97), false, 0⟩]
          ([97, 98].take (⟨0, 0, 1, none⟩ : Lexeme Nat).length) = true ∧
       (∀ l, l ≤ ([97, 98] : List Nat).length →
          anyAccepting [⟨0, Matcher.new (Regex.char 97), false, 0⟩] ([97, 98].take l) = true →
          l ≤ (⟨0, 0, 1, none⟩ : Lexeme Nat).length) ∧
       ∃ r0, firstAccepting [⟨0, Matcher.new (Regex.char 97), false, 0⟩]
          ([97, 98].take (⟨0, 0, 1, none⟩ : Lexeme Nat).length) = some r0 ∧
         (⟨0, 0, 1, none⟩ : Lexeme Nat).token = r0.token) := by
  refine ⟨_, rfl, rfl, ?_⟩
  exact C1_maximal_munch lexA [97, 98] [⟨0, Matcher.new (Regex.char 97), false, 0⟩] rfl
    (by decide) (by decide) rfl rfl rfl rfl _ rfl ⟨0, 0, 1, none⟩ [] rfl
